import Mathlib

/-!
# Verification of the print-mode progress renderer

This development embeds the `PrintModeProgress` renderer
(`print-mode-progress.ts`) in Lean and proves properties of its
ANSI-aware text utilities and of its event-driven state machine.

Modelling conventions:
* JavaScript strings are modelled as `List Char` (one entry per code
  point); `s.length` and `for (const c of s)` are both modelled by the
  list structure.
* The regex `\x1b\[[0-9;]*m` is deterministic (the character class
  `[0-9;]` excludes `m`, so greedy matching with backtracking reduces
  to: consume a maximal run of `[0-9;]` and then require `m`); it is
  embedded as the lexer `matchAnsi`.
* Recursions that consume a dynamic number of characters per step are
  implemented with a fuel parameter equal to the input length, so that
  all definitions compute by kernel reduction.
-/

namespace PiProgress

/-- Characters matched by the regex class `[0-9;]`. -/
def isParamChar (c : Char) : Bool :=
  c.isDigit || c = ';'

/-- Matching of the regex tail `[0-9;]*m`: consume a maximal run of
parameter characters, then require a literal `m`.  Returns the consumed
parameter run and the remainder after the `m`. -/
def matchParams : List Char → Option (List Char × List Char)
  | [] => none
  | c :: cs =>
    if c = 'm' then some ([], cs)
    else if isParamChar c then
      match matchParams cs with
      | some (ps, r) => some (c :: ps, r)
      | none => none
    else none

/-- Matching of the full regex `\x1b\[[0-9;]*m` at the head of the
input.  On success returns the matched sequence and the remainder. -/
def matchAnsi (l : List Char) : Option (List Char × List Char) :=
  match l with
  | c :: d :: rest =>
    if c = '\x1b' then
      if d = '[' then
        match matchParams rest with
        | some (ps, r) => some ('\x1b' :: '[' :: (ps ++ ['m']), r)
        | none => none
      else none
    else none
  | _ => none

theorem matchParams_sound : ∀ {w ps r : List Char}, matchParams w = some (ps, r) →
    w = ps ++ 'm' :: r ∧ ∀ a ∈ ps, isParamChar a = true := by
  intro w
  induction w with
  | nil => intro ps r h; simp [matchParams] at h
  | cons c cs ih =>
    intro ps r h
    by_cases hm : c = 'm'
    · subst hm
      simp [matchParams] at h
      obtain ⟨h1, h2⟩ := h
      subst h1; subst h2
      simp
    · by_cases hp : isParamChar c
      · simp [matchParams, hm, hp] at h
        rcases hq : matchParams cs with _ | ⟨ps', r'⟩
        · rw [hq] at h; simp at h
        · rw [hq] at h
          simp at h
          obtain ⟨h1, h2⟩ := h
          subst h1; subst h2
          obtain ⟨hs, ih2⟩ := ih hq
          constructor
          · rw [hs]; simp
          · intro a ha
            rcases List.mem_cons.mp ha with ha | ha
            · subst ha; exact hp
            · exact ih2 a ha
      · simp [matchParams, hm, hp] at h

theorem matchParams_append : ∀ {w ps r : List Char}, matchParams w = some (ps, r) →
    ∀ y, matchParams (w ++ y) = some (ps, r ++ y) := by
  intro w
  induction w with
  | nil => intro ps r h; simp [matchParams] at h
  | cons c cs ih =>
    intro ps r h y
    by_cases hm : c = 'm'
    · subst hm
      simp [matchParams] at h
      obtain ⟨h1, h2⟩ := h
      subst h1; subst h2
      show matchParams ('m' :: (cs ++ y)) = some ([], cs ++ y)
      simp [matchParams]
    · by_cases hp : isParamChar c
      · simp [matchParams, hm, hp] at h
        rcases hq : matchParams cs with _ | ⟨ps', r'⟩
        · rw [hq] at h; simp at h
        · rw [hq] at h
          simp at h
          obtain ⟨h1, h2⟩ := h
          subst h1; subst h2
          show matchParams (c :: (cs ++ y)) = some (c :: ps', r' ++ y)
          simp [matchParams, hm, hp]
          rw [ih hq y]
      · simp [matchParams, hm, hp] at h

theorem matchParams_none_append : ∀ {w : List Char}, matchParams w = none →
    ∀ y, matchParams (w ++ '\x1b' :: y) = none := by
  intro w
  induction w with
  | nil =>
    intro _ y
    show matchParams ('\x1b' :: y) = none
    have h2 : isParamChar '\x1b' = false := by decide
    simp [matchParams, h2]
  | cons c cs ih =>
    intro h y
    by_cases hm : c = 'm'
    · subst hm; simp [matchParams] at h
    · by_cases hp : isParamChar c
      · simp [matchParams, hm, hp] at h
        rcases hq : matchParams cs with _ | ⟨ps', r'⟩
        · show matchParams (c :: (cs ++ '\x1b' :: y)) = none
          simp [matchParams, hm, hp]
          rw [ih hq y]
        · rw [hq] at h; simp at h
      · show matchParams (c :: (cs ++ '\x1b' :: y)) = none
        simp [matchParams, hm, hp]

theorem matchParams_complete : ∀ {ps : List Char}, (∀ a ∈ ps, isParamChar a = true) →
    ∀ z, matchParams (ps ++ 'm' :: z) = some (ps, z) := by
  intro ps
  induction ps with
  | nil => intro _ z; simp [matchParams]
  | cons c cs ih =>
    intro hall z
    have hc : isParamChar c = true := hall c (by simp)
    have hm : ¬ c = 'm' := by
      intro hcm
      rw [hcm] at hc
      exact absurd hc (by decide)
    show matchParams (c :: (cs ++ 'm' :: z)) = some (c :: cs, z)
    simp [matchParams, hm, hc]
    rw [ih (fun a ha => hall a (List.mem_cons_of_mem c ha)) z]

theorem matchAnsi_sound {l m r : List Char} (h : matchAnsi l = some (m, r)) :
    l = m ++ r ∧ ∃ ps, m = '\x1b' :: '[' :: (ps ++ ['m']) ∧ ∀ a ∈ ps, isParamChar a = true := by
  rcases l with _ | ⟨c, _ | ⟨d, rest⟩⟩
  · simp [matchAnsi] at h
  · simp [matchAnsi] at h
  · by_cases hc : c = '\x1b'
    · by_cases hd : d = '['
      · subst hc; subst hd
        simp [matchAnsi] at h
        rcases hq : matchParams rest with _ | ⟨ps, r'⟩
        · rw [hq] at h; simp at h
        · rw [hq] at h
          simp at h
          obtain ⟨h1, h2⟩ := h
          obtain ⟨hs, hall⟩ := matchParams_sound hq
          subst h1; subst h2
          refine ⟨?_, ps, rfl, hall⟩
          rw [hs]; simp
      · simp [matchAnsi, hc, hd] at h
    · simp [matchAnsi, hc] at h

theorem matchAnsi_append {l m r : List Char} (h : matchAnsi l = some (m, r)) :
    ∀ y, matchAnsi (l ++ y) = some (m, r ++ y) := by
  rcases l with _ | ⟨c, _ | ⟨d, rest⟩⟩
  · simp [matchAnsi] at h
  · simp [matchAnsi] at h
  · intro y
    by_cases hc : c = '\x1b'
    · by_cases hd : d = '['
      · subst hc; subst hd
        simp [matchAnsi] at h
        rcases hq : matchParams rest with _ | ⟨ps, r'⟩
        · rw [hq] at h; simp at h
        · rw [hq] at h
          simp at h
          obtain ⟨h1, h2⟩ := h
          subst h1; subst h2
          show matchAnsi ('\x1b' :: '[' :: (rest ++ y)) = _
          simp [matchAnsi]
          rw [matchParams_append hq y]
      · simp [matchAnsi, hc, hd] at h
    · simp [matchAnsi, hc] at h

theorem matchAnsi_cons_ne_esc {c : Char} {cs : List Char} (hc : ¬ c = '\x1b') :
    matchAnsi (c :: cs) = none := by
  rcases cs with _ | ⟨d, rest⟩
  · simp [matchAnsi]
  · simp [matchAnsi, hc]

theorem matchAnsi_none_append {l : List Char} (hne : l ≠ []) (h : matchAnsi l = none) :
    ∀ y, matchAnsi (l ++ '\x1b' :: y) = none := by
  rcases l with _ | ⟨c, _ | ⟨d, rest⟩⟩
  · exact absurd rfl hne
  · intro y
    by_cases hc : c = '\x1b'
    · subst hc
      show matchAnsi ('\x1b' :: '\x1b' :: y) = none
      simp [matchAnsi]
    · show matchAnsi (c :: '\x1b' :: y) = none
      exact matchAnsi_cons_ne_esc hc
  · intro y
    by_cases hc : c = '\x1b'
    · by_cases hd : d = '['
      · subst hc; subst hd
        simp [matchAnsi] at h
        rcases hq : matchParams rest with _ | ⟨ps, r'⟩
        · show matchAnsi ('\x1b' :: '[' :: (rest ++ '\x1b' :: y)) = none
          simp [matchAnsi]
          rw [matchParams_none_append hq y]
        · rw [hq] at h; simp at h
      · subst hc
        show matchAnsi ('\x1b' :: d :: (rest ++ '\x1b' :: y)) = none
        simp [matchAnsi, hd]
    · show matchAnsi (c :: d :: (rest ++ '\x1b' :: y)) = none
      exact matchAnsi_cons_ne_esc hc

theorem matchAnsi_length {l m r : List Char} (h : matchAnsi l = some (m, r)) :
    r.length < l.length := by
  obtain ⟨hl, ps, hm, _⟩ := matchAnsi_sound h
  rw [hl, hm]
  simp
  omega

/-- Full match of the regex re-anchored at the head: the matched token
followed by anything still matches, consuming exactly the token. -/
theorem matchAnsi_token {l m r : List Char} (h : matchAnsi l = some (m, r)) :
    ∀ z, matchAnsi (m ++ z) = some (m, z) := by
  obtain ⟨_, ps, hm, hall⟩ := matchAnsi_sound h
  intro z
  subst hm
  show matchAnsi ('\x1b' :: '[' :: ((ps ++ ['m']) ++ z)) = _
  have hx : (ps ++ ['m']) ++ z = ps ++ 'm' :: z := by simp
  rw [hx]
  simp [matchAnsi]
  rw [matchParams_complete hall z]

/-- Fuel-based implementation of `stripAnsi` (the fuel is always
instantiated with the input length, which suffices because every step
consumes at least one character). -/
def stripAnsiF : Nat → List Char → List Char
  | 0, _ => []
  | fuel + 1, l =>
    match matchAnsi l with
    | some (_, r) => stripAnsiF fuel r
    | none =>
      match l with
      | [] => []
      | c :: cs => c :: stripAnsiF fuel cs

theorem stripAnsiF_nil : ∀ fuel, stripAnsiF fuel [] = [] := by
  intro fuel
  cases fuel <;> simp [stripAnsiF, matchAnsi]

theorem stripAnsiF_succ_some {fuel : Nat} {l m r : List Char} (h : matchAnsi l = some (m, r)) :
    stripAnsiF (fuel + 1) l = stripAnsiF fuel r := by
  simp [stripAnsiF, h]

theorem stripAnsiF_succ_none {fuel : Nat} {c : Char} {cs : List Char}
    (h : matchAnsi (c :: cs) = none) :
    stripAnsiF (fuel + 1) (c :: cs) = c :: stripAnsiF fuel cs := by
  simp [stripAnsiF, h]

theorem stripAnsiF_congr : ∀ (f₁ : Nat) {f₂ : Nat} {l : List Char},
    l.length ≤ f₁ → l.length ≤ f₂ → stripAnsiF f₁ l = stripAnsiF f₂ l := by
  intro f₁
  induction f₁ with
  | zero =>
    intro f₂ l h1 _
    have : l = [] := List.eq_nil_of_length_eq_zero (Nat.le_zero.mp h1)
    rw [this, stripAnsiF_nil, stripAnsiF_nil]
  | succ n ih =>
    intro f₂ l h1 h2
    rcases l with _ | ⟨c, cs⟩
    · rw [stripAnsiF_nil, stripAnsiF_nil]
    · rcases f₂ with _ | f₂
      · simp at h2
      · rcases h : matchAnsi (c :: cs) with _ | ⟨m, r⟩
        · rw [stripAnsiF_succ_none h, stripAnsiF_succ_none h]
          have hcs1 : cs.length ≤ n := by simp at h1; omega
          have hcs2 : cs.length ≤ f₂ := by simp at h2; omega
          rw [ih hcs1 hcs2]
        · rw [stripAnsiF_succ_some h, stripAnsiF_succ_some h]
          have hr := matchAnsi_length h
          have hr1 : r.length ≤ n := by simp at h1 hr; omega
          have hr2 : r.length ≤ f₂ := by simp at h2 hr; omega
          exact ih hr1 hr2

/-- `stripAnsi(str)`: remove every match of `\x1b\[[0-9;]*m`
(`str.replace(/\x1b\[[0-9;]*m/g, "")`). -/
def stripAnsi (l : List Char) : List Char :=
  stripAnsiF l.length l

theorem stripAnsi_nil : stripAnsi [] = [] := rfl

theorem stripAnsi_some {l m r : List Char} (h : matchAnsi l = some (m, r)) :
    stripAnsi l = stripAnsi r := by
  rcases l with _ | ⟨c, cs⟩
  · simp [matchAnsi] at h
  · show stripAnsiF (c :: cs).length (c :: cs) = stripAnsi r
    have hr := matchAnsi_length h
    rw [List.length_cons, stripAnsiF_succ_some h]
    exact stripAnsiF_congr cs.length (by simp at hr; omega) (le_refl _)

theorem stripAnsi_cons_none {c : Char} {cs : List Char} (h : matchAnsi (c :: cs) = none) :
    stripAnsi (c :: cs) = c :: stripAnsi cs := by
  show stripAnsiF (c :: cs).length (c :: cs) = c :: stripAnsi cs
  rw [List.length_cons, stripAnsiF_succ_none h]
  rfl

/-- `visibleWidth(str)`: length of the ANSI-stripped string. -/
def visibleWidth (l : List Char) : Nat :=
  (stripAnsi l).length

/-- Scanning distributes over an append whose right part starts with the
escape character: no match of `\x1b\[[0-9;]*m` can cross the boundary,
because the escape character can only occur at position 0 of a match. -/
theorem stripAnsi_append_esc :
    ∀ (fuel : Nat) (l : List Char), l.length ≤ fuel → ∀ y,
    stripAnsi (l ++ '\x1b' :: y) = stripAnsi l ++ stripAnsi ('\x1b' :: y) := by
  intro fuel
  induction fuel with
  | zero =>
    intro l hl y
    have : l = [] := List.eq_nil_of_length_eq_zero (Nat.le_zero.mp hl)
    subst this
    simp [stripAnsi_nil]
  | succ n ih =>
    intro l hl y
    rcases l with _ | ⟨c, cs⟩
    · simp [stripAnsi_nil]
    · rcases h : matchAnsi (c :: cs) with _ | ⟨m, r⟩
      · have hn : matchAnsi ((c :: cs) ++ '\x1b' :: y) = none :=
          matchAnsi_none_append (by simp) h y
        have hn' : matchAnsi (c :: (cs ++ '\x1b' :: y)) = none := by
          simpa using hn
        rw [show (c :: cs) ++ '\x1b' :: y = c :: (cs ++ '\x1b' :: y) from rfl]
        rw [stripAnsi_cons_none hn', stripAnsi_cons_none h]
        rw [ih cs (by simp at hl; omega) y]
        simp
      · have ha : matchAnsi ((c :: cs) ++ '\x1b' :: y) = some (m, r ++ '\x1b' :: y) :=
          matchAnsi_append h ('\x1b' :: y)
        rw [stripAnsi_some ha, stripAnsi_some h]
        have hr := matchAnsi_length h
        exact ih r (by simp at hl hr; omega) y

/-- Stripping never lengthens a string. -/
theorem stripAnsi_length_le : ∀ (fuel : Nat) (l : List Char), l.length ≤ fuel →
    (stripAnsi l).length ≤ l.length := by
  intro fuel
  induction fuel with
  | zero =>
    intro l hl
    have : l = [] := List.eq_nil_of_length_eq_zero (Nat.le_zero.mp hl)
    subst this
    simp [stripAnsi_nil]
  | succ n ih =>
    intro l hl
    rcases l with _ | ⟨c, cs⟩
    · simp [stripAnsi_nil]
    · rcases h : matchAnsi (c :: cs) with _ | ⟨m, r⟩
      · rw [stripAnsi_cons_none h]
        have := ih cs (by simp at hl; omega)
        simp
        omega
      · rw [stripAnsi_some h]
        have hr := matchAnsi_length h
        have h3 := ih r (by simp at hl hr; omega)
        simp only [List.length_cons] at hl hr ⊢
        omega

/-- A string without the escape character strips to itself. -/
theorem stripAnsi_no_esc : ∀ {l : List Char}, (∀ c ∈ l, ¬ c = '\x1b') →
    stripAnsi l = l := by
  intro l
  induction l with
  | nil => intro _; exact stripAnsi_nil
  | cons c cs ih =>
    intro hall
    have hc : ¬ c = '\x1b' := hall c (by simp)
    rw [stripAnsi_cons_none (matchAnsi_cons_ne_esc hc)]
    rw [ih (fun a ha => hall a (List.mem_cons_of_mem c ha))]

/-- Fuel-based implementation of the copying walk inside
`truncateToWidth`: tokens (ANSI sequences and plain characters) are
copied in order; before each token the budget check
`visibleCount >= targetWidth` stops the walk; plain characters increment
the count, ANSI sequences are copied for free. -/
def truncWalkF : Nat → List Char → Nat → Nat → List Char
  | 0, _, _, _ => []
  | fuel + 1, l, target, count =>
    match matchAnsi l with
    | some (m, r) =>
      if target ≤ count then [] else m ++ truncWalkF fuel r target count
    | none =>
      match l with
      | [] => []
      | c :: cs =>
        if target ≤ count then [] else c :: truncWalkF fuel cs target (count + 1)

theorem truncWalkF_nil : ∀ fuel target count, truncWalkF fuel [] target count = [] := by
  intro fuel target count
  cases fuel <;> simp [truncWalkF, matchAnsi]

theorem truncWalkF_succ_some {fuel : Nat} {l m r : List Char} {target count : Nat}
    (h : matchAnsi l = some (m, r)) :
    truncWalkF (fuel + 1) l target count =
      if target ≤ count then [] else m ++ truncWalkF fuel r target count := by
  simp [truncWalkF, h]

theorem truncWalkF_succ_none {fuel : Nat} {c : Char} {cs : List Char} {target count : Nat}
    (h : matchAnsi (c :: cs) = none) :
    truncWalkF (fuel + 1) (c :: cs) target count =
      if target ≤ count then [] else c :: truncWalkF fuel cs target (count + 1) := by
  simp [truncWalkF, h]

theorem truncWalkF_congr : ∀ (f₁ : Nat) {f₂ : Nat} {l : List Char} {target count : Nat},
    l.length ≤ f₁ → l.length ≤ f₂ →
    truncWalkF f₁ l target count = truncWalkF f₂ l target count := by
  intro f₁
  induction f₁ with
  | zero =>
    intro f₂ l target count h1 _
    have : l = [] := List.eq_nil_of_length_eq_zero (Nat.le_zero.mp h1)
    rw [this, truncWalkF_nil, truncWalkF_nil]
  | succ n ih =>
    intro f₂ l target count h1 h2
    rcases l with _ | ⟨c, cs⟩
    · rw [truncWalkF_nil, truncWalkF_nil]
    · rcases f₂ with _ | f₂
      · simp at h2
      · rcases h : matchAnsi (c :: cs) with _ | ⟨m, r⟩
        · rw [truncWalkF_succ_none h, truncWalkF_succ_none h]
          have hcs1 : cs.length ≤ n := by simp at h1; omega
          have hcs2 : cs.length ≤ f₂ := by simp at h2; omega
          rw [ih hcs1 hcs2]
        · rw [truncWalkF_succ_some h, truncWalkF_succ_some h]
          have hr := matchAnsi_length h
          have hr1 : r.length ≤ n := by simp at h1 hr; omega
          have hr2 : r.length ≤ f₂ := by simp at h2 hr; omega
          rw [ih hr1 hr2]

/-- The copying walk of `truncateToWidth`. -/
def truncWalk (l : List Char) (target count : Nat) : List Char :=
  truncWalkF l.length l target count

theorem truncWalk_nil {target count : Nat} : truncWalk [] target count = [] :=
  truncWalkF_nil 0 target count

theorem truncWalk_some {l m r : List Char} {target count : Nat}
    (h : matchAnsi l = some (m, r)) :
    truncWalk l target count =
      if target ≤ count then [] else m ++ truncWalk r target count := by
  rcases l with _ | ⟨c, cs⟩
  · simp [matchAnsi] at h
  · show truncWalkF (c :: cs).length (c :: cs) target count = _
    rw [List.length_cons, truncWalkF_succ_some h]
    have hr := matchAnsi_length h
    rw [truncWalkF_congr cs.length (by simp at hr; omega) (le_refl r.length)]
    rfl

theorem truncWalk_cons_none {c : Char} {cs : List Char} {target count : Nat}
    (h : matchAnsi (c :: cs) = none) :
    truncWalk (c :: cs) target count =
      if target ≤ count then [] else c :: truncWalk cs target (count + 1) := by
  show truncWalkF (c :: cs).length (c :: cs) target count = _
  rw [List.length_cons, truncWalkF_succ_none h]
  rfl

/-- The walk emits a prefix of its input: tokens are copied through
verbatim, in order, until the walk stops. -/
theorem truncWalk_isPre : ∀ (fuel : Nat) (l : List Char) (target count : Nat),
    l.length ≤ fuel → ∃ q, l = truncWalk l target count ++ q := by
  intro fuel
  induction fuel with
  | zero =>
    intro l target count hl
    have : l = [] := List.eq_nil_of_length_eq_zero (Nat.le_zero.mp hl)
    subst this
    exact ⟨[], by simp [truncWalk_nil]⟩
  | succ n ih =>
    intro l target count hl
    rcases l with _ | ⟨c, cs⟩
    · exact ⟨[], by simp [truncWalk_nil]⟩
    · rcases h : matchAnsi (c :: cs) with _ | ⟨m, r⟩
      · rw [truncWalk_cons_none h]
        by_cases hb : target ≤ count
        · exact ⟨c :: cs, by rw [if_pos hb]; rfl⟩
        · obtain ⟨q, hq⟩ := ih cs target (count + 1) (by simp at hl; omega)
          refine ⟨q, ?_⟩
          rw [if_neg hb, List.cons_append, ← hq]
      · rw [truncWalk_some h]
        by_cases hb : target ≤ count
        · exact ⟨c :: cs, by rw [if_pos hb]; rfl⟩
        · have hr := matchAnsi_length h
          obtain ⟨q, hq⟩ := ih r target count (by simp at hl hr; omega)
          refine ⟨q, ?_⟩
          rw [if_neg hb, List.append_assoc, ← hq]
          exact (matchAnsi_sound h).1

/-- The plain characters emitted by the walk are exactly the first
`target - count` characters of the stripped input. -/
theorem stripAnsi_truncWalk : ∀ (fuel : Nat) (l : List Char) (target count : Nat),
    l.length ≤ fuel →
    stripAnsi (truncWalk l target count) = (stripAnsi l).take (target - count) := by
  intro fuel
  induction fuel with
  | zero =>
    intro l target count hl
    have : l = [] := List.eq_nil_of_length_eq_zero (Nat.le_zero.mp hl)
    subst this
    rw [truncWalk_nil, stripAnsi_nil]
    simp
  | succ n ih =>
    intro l target count hl
    rcases l with _ | ⟨c, cs⟩
    · rw [truncWalk_nil, stripAnsi_nil]
      simp
    · rcases h : matchAnsi (c :: cs) with _ | ⟨m, r⟩
      · rw [truncWalk_cons_none h]
        by_cases hb : target ≤ count
        · rw [if_pos hb, stripAnsi_nil]
          have : target - count = 0 := by omega
          rw [this]
          simp
        · rw [if_neg hb]
          have hW : ∃ q, cs = truncWalk cs target (count + 1) ++ q :=
            truncWalk_isPre n cs target (count + 1) (by simp at hl; omega)
          obtain ⟨q, hq⟩ := hW
          have hnone : matchAnsi (c :: truncWalk cs target (count + 1)) = none := by
            rcases h2 : matchAnsi (c :: truncWalk cs target (count + 1)) with _ | ⟨m', r'⟩
            · rfl
            · exfalso
              have := matchAnsi_append h2 q
              rw [show (c :: truncWalk cs target (count + 1)) ++ q = c :: cs by
                rw [List.cons_append, ← hq]] at this
              rw [h] at this
              simp at this
          rw [stripAnsi_cons_none hnone, stripAnsi_cons_none h]
          rw [ih cs target (count + 1) (by simp at hl; omega)]
          have hsub : target - count = (target - (count + 1)) + 1 := by omega
          rw [hsub]
          simp
      · rw [truncWalk_some h]
        by_cases hb : target ≤ count
        · rw [if_pos hb, stripAnsi_nil]
          have : target - count = 0 := by omega
          rw [this]
          simp
        · rw [if_neg hb]
          have htok : matchAnsi (m ++ truncWalk r target count) =
              some (m, truncWalk r target count) := matchAnsi_token h _
          rw [stripAnsi_some htok, stripAnsi_some h]
          have hr := matchAnsi_length h
          exact ih r target count (by simp at hl hr; omega)

/-- The ANSI style-reset sequence `\x1b[0m` appended before the ellipsis. -/
def resetSeq : List Char :=
  ['\x1b', '[', '0', 'm']

/-- The default ellipsis argument of `truncateToWidth`. -/
def defaultEllipsis : List Char :=
  ['.', '.', '.']

/-- `truncateToWidth(text, maxWidth, ellipsis = "...")`.
The JS guard `targetWidth <= 0` (with `targetWidth = maxWidth -
ellipsis.length` computed on numbers) is rendered as
`maxWidth ≤ ellipsis.length`, and `ellipsis.slice(0, maxWidth)` as
`ellipsis.take maxWidth`. -/
def truncateToWidth (text : List Char) (maxWidth : Nat)
    (ellipsis : List Char := defaultEllipsis) : List Char :=
  if visibleWidth text ≤ maxWidth then text
  else if maxWidth ≤ ellipsis.length then ellipsis.take maxWidth
  else truncWalk text (maxWidth - ellipsis.length) 0 ++ resetSeq ++ ellipsis

theorem stripAnsi_reset_ellipsis :
    stripAnsi ('\x1b' :: '[' :: '0' :: 'm' :: defaultEllipsis) = defaultEllipsis := by
  decide

/-- C1: for every string `s` and every non-negative integer `maxWidth`,
`visibleWidth (truncateToWidth s maxWidth) ≤ maxWidth`; and whenever
`visibleWidth s ≤ maxWidth`, `truncateToWidth s maxWidth` returns `s`
unchanged (identity below the threshold). -/
theorem truncate_width_bound_and_identity (s : List Char) (maxWidth : Nat) :
    visibleWidth (truncateToWidth s maxWidth) ≤ maxWidth ∧
      (visibleWidth s ≤ maxWidth → truncateToWidth s maxWidth = s) := by
  constructor
  · by_cases h1 : visibleWidth s ≤ maxWidth
    · simp only [truncateToWidth, if_pos h1]
      exact h1
    · by_cases h2 : maxWidth ≤ defaultEllipsis.length
      · simp only [truncateToWidth, if_neg h1, if_pos h2]
        have h3 : maxWidth ≤ 3 := by
          simpa [defaultEllipsis] using h2
        interval_cases maxWidth <;> decide
      · simp only [truncateToWidth, if_neg h1, if_neg h2]
        have hlen : defaultEllipsis.length = 3 := by decide
        rw [hlen]
        have hassoc : truncWalk s (maxWidth - 3) 0 ++ resetSeq ++ defaultEllipsis
            = truncWalk s (maxWidth - 3) 0 ++ '\x1b' :: ('[' :: '0' :: 'm' :: defaultEllipsis) := by
          simp [resetSeq]
        rw [visibleWidth, hassoc]
        rw [stripAnsi_append_esc (truncWalk s (maxWidth - 3) 0).length _ (le_refl _) _]
        rw [List.length_append]
        have hres : (stripAnsi ('\x1b' :: '[' :: '0' :: 'm' :: defaultEllipsis)).length = 3 := by
          decide
        rw [hres]
        rw [stripAnsi_truncWalk s.length s (maxWidth - 3) 0 (le_refl _)]
        rw [List.length_take]
        rw [hlen] at h2
        omega
  · intro h1
    simp only [truncateToWidth, if_pos h1]

/-- Concrete input for the C1 witness. -/
def sampleHello : List Char :=
  "hello".toList

/-- C1 witness: the theorem applied at a concrete input, discharging
the identity hypothesis there. -/
theorem truncate_width_bound_and_identity_witness :
    visibleWidth (truncateToWidth sampleHello 10) ≤ 10 ∧
      truncateToWidth sampleHello 10 = sampleHello :=
  ⟨(truncate_width_bound_and_identity sampleHello 10).1,
    (truncate_width_bound_and_identity sampleHello 10).2 (by decide)⟩

/-- Concrete input for the C2 counterexample. -/
def sampleAbcd : List Char :=
  "abcd".toList

/-- C2 counterexample: at `maxWidth` *equal to* the ellipsis width
(`maxWidth = 3`, ellipsis `"..."`), the code already takes the
degenerate branch and returns the sliced ellipsis without any reset
sequence, while the claim as stated assigns this case to the main path
(copy `3 - 3 = 0` plain characters, then append a style-reset followed
by the ellipsis, i.e. `"\x1b[0m..."`). -/
theorem truncate_boundary_cex :
    visibleWidth sampleAbcd = 4 ∧
      truncateToWidth sampleAbcd 3 = defaultEllipsis ∧
      truncateToWidth sampleAbcd 3 ≠ resetSeq ++ defaultEllipsis := by
  decide

/-- C2 (amended): for every string with `visibleWidth s > maxWidth`,
if `maxWidth ≤ ellipsis.length` (note: `≤`, not `<`, and the raw
character length of the ellipsis, not its visible width) the result is
the ellipsis itself cut to the first `maxWidth` characters; otherwise
the result is a literal prefix `p` of `s` (so every style-escape
sequence inside it is copied through unchanged, consuming no width
budget) whose stripped content is exactly the first
`maxWidth - ellipsis.length` plain characters of `s`, followed by the
style-reset sequence and the ellipsis. -/
theorem truncate_overflow_structure (s : List Char) (maxWidth : Nat) (ellipsis : List Char)
    (hover : maxWidth < visibleWidth s) :
    (maxWidth ≤ ellipsis.length →
      truncateToWidth s maxWidth ellipsis = ellipsis.take maxWidth) ∧
    (ellipsis.length < maxWidth →
      ∃ p q, truncateToWidth s maxWidth ellipsis = p ++ resetSeq ++ ellipsis ∧
        s = p ++ q ∧
        stripAnsi p = (stripAnsi s).take (maxWidth - ellipsis.length) ∧
        (stripAnsi p).length = maxWidth - ellipsis.length) := by
  have h1 : ¬ visibleWidth s ≤ maxWidth := by omega
  constructor
  · intro h2
    simp only [truncateToWidth, if_neg h1, if_pos h2]
  · intro h2
    have h2' : ¬ maxWidth ≤ ellipsis.length := by omega
    simp only [truncateToWidth, if_neg h1, if_neg h2']
    refine ⟨truncWalk s (maxWidth - ellipsis.length) 0, ?_⟩
    obtain ⟨q, hq⟩ := truncWalk_isPre s.length s (maxWidth - ellipsis.length) 0 (le_refl _)
    refine ⟨q, rfl, hq, ?_, ?_⟩
    · have h3 := stripAnsi_truncWalk s.length s (maxWidth - ellipsis.length) 0 (le_refl _)
      simpa using h3
    · rw [stripAnsi_truncWalk s.length s (maxWidth - ellipsis.length) 0 (le_refl _)]
      rw [List.length_take]
      have h4 : maxWidth - ellipsis.length ≤ visibleWidth s := by omega
      rw [visibleWidth] at h4
      omega

/-- Concrete input for the C2 witness. -/
def sampleAbcde : List Char :=
  "abcde".toList

/-- C2 witness: the amended theorem applied at a concrete overflowing
input, discharging both hypotheses there. -/
theorem truncate_overflow_structure_witness :
    ∃ p q, truncateToWidth sampleAbcde 4 defaultEllipsis = p ++ resetSeq ++ defaultEllipsis ∧
      sampleAbcde = p ++ q ∧
      stripAnsi p = (stripAnsi sampleAbcde).take (4 - defaultEllipsis.length) ∧
      (stripAnsi p).length = 4 - defaultEllipsis.length :=
  (truncate_overflow_structure sampleAbcde 4 defaultEllipsis (by decide)).2 (by decide)

/-- Concrete input for the C3 counterexample: `"\x1b[\x1b[0m0m"`.
Stripping the inner escape sequence glues `"\x1b["` and `"0m"` together
into a new escape sequence. -/
def adversarialEsc : List Char :=
  "\x1b[\x1b[0m0m".toList

/-- C3 counterexample: the visible width is not preserved by stripping
on a string with interleaved escape-like sequences — the stripped form
is itself a complete escape sequence, so its own visible width is `0`
while the original's is `4`. -/
theorem strip_width_cex :
    visibleWidth adversarialEsc = 4 ∧
      visibleWidth (stripAnsi adversarialEsc) = 0 ∧
      ¬ visibleWidth (stripAnsi adversarialEsc) = visibleWidth adversarialEsc := by
  decide

/-- C3 (amended): stripping never increases the computed visible width,
`visibleWidth (stripAnsi s) ≤ visibleWidth s`; and the two widths are
equal whenever the stripped form contains no leftover escape character
(in particular for every string without adversarially interleaved
partial escape sequences). -/
theorem strip_width_le_and_eq (s : List Char) :
    visibleWidth (stripAnsi s) ≤ visibleWidth s ∧
      ((∀ c ∈ stripAnsi s, ¬ c = '\x1b') →
        visibleWidth (stripAnsi s) = visibleWidth s) := by
  constructor
  · exact stripAnsi_length_le (stripAnsi s).length (stripAnsi s) (le_refl _)
  · intro h
    rw [visibleWidth, stripAnsi_no_esc h]
    rfl

/-- Concrete input for the C3 witness. -/
def sampleStyled : List Char :=
  "a\x1b[1mb".toList

/-- C3 witness: the amended theorem applied at a concrete styled input,
discharging the no-leftover-escape hypothesis there. -/
theorem strip_width_le_and_eq_witness :
    visibleWidth (stripAnsi sampleStyled) = visibleWidth sampleStyled :=
  (strip_width_le_and_eq sampleStyled).2 (by decide)

/-! ## The progress-renderer state machine -/

/-- Decimal digits of a natural number. -/
def natChars (n : Nat) : List Char :=
  (Nat.repr n).toList

/-- `Math.round(n / d)` for natural `n vd`, modelled as round-half-up on
the exact rational value (`Math.round` rounds half toward `+∞`; the
underlying float may round decimal ties differently, which no claim
depends on). -/
def jsRound (n d : Nat) : Nat :=
  (n + d / 2) / d

/-- `(n / d).toFixed(1)` for natural `n d`, modelled as round-half-up
decimal rounding of the exact rational value. -/
def fixed1 (n d : Nat) : List Char :=
  let t := (10 * n + d / 2) / d
  natChars (t / 10) ++ '.' :: natChars (t % 10)

/-- `formatTokens(count)` from the source: `<1000` literal, `<10000`
one decimal + `k`, `<1e6` rounded + `k`, `<1e7` one decimal + `M`,
else rounded + `M`. -/
def formatTokens (count : Nat) : List Char :=
  if count < 1000 then natChars count
  else if count < 10000 then fixed1 count 1000 ++ ['k']
  else if count < 1000000 then natChars (jsRound count 1000) ++ ['k']
  else if count < 10000000 then fixed1 count 1000000 ++ ['M']
  else natChars (jsRound count 1000000) ++ ['M']

/-- Round-half-up of `q * scale` to a natural number (all quantities in
the renderer are non-negative). -/
def ratScaledRound (q : ℚ) (scale : Nat) : Nat :=
  (Rat.floor (q * scale + 1 / 2)).toNat

/-- Zero-pad to three digits (the fractional part of `toFixed(3)`). -/
def pad3 (k : Nat) : List Char :=
  if k < 10 then '0' :: '0' :: natChars k
  else if k < 100 then '0' :: natChars k
  else natChars k

/-- `q.toFixed(3)` for non-negative `q`, modelled as round-half-up
decimal rounding of the exact rational value. -/
def qFixed3 (q : ℚ) : List Char :=
  let t := ratScaledRound q 1000
  natChars (t / 1000) ++ '.' :: pad3 (t % 1000)

/-- `q.toFixed(1)` for non-negative `q`, modelled as round-half-up
decimal rounding of the exact rational value. -/
def qFixed1 (q : ℚ) : List Char :=
  let t := ratScaledRound q 10
  natChars (t / 10) ++ '.' :: natChars (t % 10)

/-- An SGR style sequence `\x1b[<params>m`. -/
def sgrSeq (params : List Char) : List Char :=
  '\x1b' :: '[' :: params ++ ['m']

/-- Modelled from the spec: the theme module
(`./interactive/theme/theme.js`) is imported by the renderer but is not
part of the analysed sources.  The spec limits the emitted style
sequences to the recognized form `\x1b[<params>m`, so `theme.fg(color,
s)` is modelled as an SGR color prefix followed by the text and a
reset sequence, with a fixed parameter string per color name. -/
def themeFg (params : List Char) (s : List Char) : List Char :=
  sgrSeq params ++ s ++ sgrSeq ['0']

/-- SGR parameters chosen for the spec-modelled `accent` color. -/
def accentParams : List Char := ['3', '6']

/-- SGR parameters chosen for the spec-modelled `warning` color. -/
def warningParams : List Char := ['3', '3']

/-- SGR parameters chosen for the spec-modelled `error` color. -/
def errorParams : List Char := ['3', '1']

/-- SGR parameters chosen for the spec-modelled `dim` color. -/
def dimParams : List Char := ['9', '0']

/-- The whitespace characters removed by JavaScript `trim()`
(restricted to the characters relevant here). -/
def jsWhitespace (c : Char) : Bool :=
  c = ' ' || c = '\t' || c = '\n' || c = '\r' || c = '\x0b' || c = '\x0c' ||
    c = ' ' || c = '﻿'

/-- `replace(/ +/g, " ")`: collapse each run of spaces to one space. -/
def collapseSpaces : List Char → List Char
  | [] => []
  | [c] => [c]
  | c :: d :: rest =>
    if c = ' ' ∧ d = ' ' then collapseSpaces (d :: rest)
    else c :: collapseSpaces (d :: rest)

/-- JavaScript `trim()`. -/
def jsTrim (l : List Char) : List Char :=
  ((l.dropWhile jsWhitespace).reverse.dropWhile jsWhitespace).reverse

/-- `normalizeText(text)`: replace `[\r\n\t]` by spaces, collapse space
runs, trim. -/
def normalizeText (t : List Char) : List Char :=
  jsTrim (collapseSpaces (t.map fun c => if c = '\r' ∨ c = '\n' ∨ c = '\t' then ' ' else c))

/-- The spinner frames (braille pattern). -/
def SPINNER_FRAMES : List Char :=
  ['⠋', '⠙', '⠹', '⠸', '⠼', '⠴', '⠦', '⠧', '⠇', '⠏']

/-- Activity kind, `"tool" | "thinking" | "text" | "system"`. -/
inductive ActivityType
  | tool
  | thinking
  | text
  | system
  deriving DecidableEq

/-- Reasoning levels of `ThinkingLevel`. -/
inductive ThinkingLevel
  | off
  | minimal
  | low
  | medium
  | high
  deriving DecidableEq

/-- The textual name of a thinking level. -/
def thinkingLevelChars : ThinkingLevel → List Char
  | ThinkingLevel.off => "off".toList
  | ThinkingLevel.minimal => "minimal".toList
  | ThinkingLevel.low => "low".toList
  | ThinkingLevel.medium => "medium".toList
  | ThinkingLevel.high => "high".toList

/-- Message roles; only `assistant` matters, all others are collapsed. -/
inductive Role
  | assistant
  | other
  deriving DecidableEq

/-- Per-message usage (`usage` field of a completed message; the
`cost.total` float is modelled as an exact rational). -/
structure Usage where
  input : Nat
  output : Nat
  cacheRead : Nat
  cacheWrite : Nat
  cost : ℚ
  deriving DecidableEq

/-- `ContextUsage`: tokens of the last message against the window. -/
structure ContextUsage where
  tokens : Nat
  window : Nat
  deriving DecidableEq

/-- The model descriptor (fields read by the renderer). -/
structure Model where
  id : List Char
  reasoning : Bool
  contextWindow : Nat
  deriving DecidableEq

/-- Tool-call arguments: the fields the renderer reads, plus the
`JSON.stringify` rendering of the whole argument object (kept as an
opaque string since its exact shape is irrelevant to every claim).
`none` models an absent field. -/
structure ToolArgs where
  path : Option (List Char)
  file_path : Option (List Char)
  command : Option (List Char)
  pattern : Option (List Char)
  json : List Char
  deriving DecidableEq

/-- Assistant-message content blocks. -/
inductive ContentBlock
  | toolCall (name : List Char) (args : ToolArgs)
  | thinking (text : List Char)
  | text (text : List Char)
  deriving DecidableEq

/-- An agent message (role, streamed content, usage). -/
structure Message where
  role : Role
  content : List ContentBlock
  usage : Usage
  deriving DecidableEq

/-- `AgentSessionEvent`s routed by `handleEvent`; `other` stands for
every unrecognized event kind (the `switch` has no default case). -/
inductive Event
  | message_start (message : Message)
  | message_update (message : Message)
  | message_end (message : Message)
  | auto_compaction_start
  | auto_retry_start (attempt : Nat) (maxAttempts : Nat)
  | other
  deriving DecidableEq

/-- The mutable instance state of `PrintModeProgress`.
`spinnerRunning` models `spinnerInterval !== null`. -/
structure PrintModeProgress where
  spinnerFrame : Nat
  spinnerRunning : Bool
  startTime : Nat
  currentActivity : List Char
  currentActivityType : ActivityType
  currentToolName : List Char
  usage : Usage
  context : ContextUsage
  hasReceivedStats : Bool
  model : Option Model
  thinkingLevel : ThinkingLevel
  isActive : Bool
  hasRenderedOnce : Bool
  deriving DecidableEq

/-- Ambient host state read by the renderer: `process.stderr.columns`
(absent on non-terminals), `Date.now()`, and the home directory from
the environment (`""` when unset). -/
structure Env where
  columns : Option Nat
  now : Nat
  home : List Char
  deriving DecidableEq

/-- The constructor state (`new PrintModeProgress()` at time
`ctorNow`). -/
def initState (ctorNow : Nat) : PrintModeProgress where
  spinnerFrame := 0
  spinnerRunning := false
  startTime := ctorNow
  currentActivity := []
  currentActivityType := ActivityType.system
  currentToolName := []
  usage := { input := 0, output := 0, cacheRead := 0, cacheWrite := 0, cost := 0 }
  context := { tokens := 0, window := 0 }
  hasReceivedStats := false
  model := none
  thinkingLevel := ThinkingLevel.off
  isActive := false
  hasRenderedOnce := false

/-- The tool calls of a message (`content.filter(c => c.type === "toolCall")`). -/
def toolCallsOf (m : Message) : List (List Char × ToolArgs) :=
  m.content.filterMap fun c =>
    match c with
    | ContentBlock.toolCall n a => some (n, a)
    | _ => none

/-- The thinking blocks of a message. -/
def thinkingsOf (m : Message) : List (List Char) :=
  m.content.filterMap fun c =>
    match c with
    | ContentBlock.thinking t => some t
    | _ => none

/-- The text blocks of a message. -/
def textsOf (m : Message) : List (List Char) :=
  m.content.filterMap fun c =>
    match c with
    | ContentBlock.text t => some t
    | _ => none

/-- `String(a || b)` on string-or-absent values: `a` when present and
non-empty (the empty string is falsy), else the fallback. -/
def jsOrStr (o : Option (List Char)) (dflt : List Char) : List Char :=
  match o with
  | some s => if s = [] then dflt else s
  | none => dflt

/-- `shortenPath(path)`: replace the home-directory prefix by `~`. -/
def shortenPath (env : Env) (p : List Char) : List Char :=
  if env.home ≠ [] ∧ env.home.isPrefixOf p then '~' :: p.drop env.home.length
  else p

/-- `formatToolCall(toolCall)`: tool-specific argument rendering. -/
def formatToolCall (env : Env) (name : List Char) (args : ToolArgs) : List Char :=
  if name = "read".toList then shortenPath env (jsOrStr args.path (jsOrStr args.file_path []))
  else if name = "write".toList then shortenPath env (jsOrStr args.path (jsOrStr args.file_path []))
  else if name = "edit".toList then shortenPath env (jsOrStr args.path (jsOrStr args.file_path []))
  else if name = "bash".toList then normalizeText (jsOrStr args.command [])
  else if name = "grep".toList then
    '/' :: jsOrStr args.pattern [] ++ '/' :: ' ' :: 'i' :: 'n' :: ' ' ::
      shortenPath env (jsOrStr args.path ['.'])
  else if name = "find".toList then
    jsOrStr args.pattern [] ++ ' ' :: 'i' :: 'n' :: ' ' :: shortenPath env (jsOrStr args.path ['.'])
  else if name = "ls".toList then shortenPath env (jsOrStr args.path ['.'])
  else if 40 < args.json.length then args.json.take 37 ++ defaultEllipsis
  else args.json

/-- `updateFromAssistantMessage(msg)`: tool calls take priority, then
thinking blocks, then non-empty text blocks; each branch uses the last
matching block; otherwise the state is left unchanged. -/
def updateFromAssistantMessage (env : Env) (st : PrintModeProgress) (m : Message) :
    PrintModeProgress :=
  match (toolCallsOf m).getLast? with
  | some (n, a) =>
    { st with
      currentToolName := n
      currentActivity := formatToolCall env n a
      currentActivityType := ActivityType.tool }
  | none =>
    match (thinkingsOf m).getLast? with
    | some t =>
      { st with
        currentActivity := if jsTrim t ≠ [] then normalizeText t else []
        currentActivityType := ActivityType.thinking }
    | none =>
      match (textsOf m).getLast? with
      | some t =>
        if t ≠ [] then
          { st with
            currentActivity := normalizeText t
            currentActivityType := ActivityType.text }
        else st
      | none => st

/-- Field-wise accumulation of usage (`this.usage.x += msg.usage.x`). -/
def addUsage (u v : Usage) : Usage where
  input := u.input + v.input
  output := u.output + v.output
  cacheRead := u.cacheRead + v.cacheRead
  cacheWrite := u.cacheWrite + v.cacheWrite
  cost := u.cost + v.cost

/-- `formatElapsedTime()`: seconds under a minute, else `<m>m <s>s`. -/
def formatElapsedTime (env : Env) (st : PrintModeProgress) : List Char :=
  let elapsed := (env.now - st.startTime) / 1000
  if elapsed < 60 then natChars elapsed ++ ['s']
  else natChars (elapsed / 60) ++ 'm' :: ' ' :: natChars (elapsed % 60) ++ ['s']

/-- The context percentage `(tokens / window) * 100`, computed at
render time on exact rationals. -/
def contextPercent (st : PrintModeProgress) : ℚ :=
  (st.context.tokens : ℚ) / (st.context.window : ℚ) * 100

/-- The context segment text `<percent>%/<formatted window>`. -/
def contextDisplay (st : PrintModeProgress) : List Char :=
  qFixed1 (contextPercent st) ++ '%' :: '/' :: formatTokens st.context.window

/-- The placeholder token shown before the first completed message. -/
def placeholder : List Char := ['-', '-', '-']

/-- The `parts` array built by `buildStatsLine`, in push order: five
usage segments (placeholders before the first stats), the context
segment when a window is known, the model segment, the elapsed time. -/
def statsParts (env : Env) (st : PrintModeProgress) : List (List Char) :=
  (if st.hasReceivedStats then
    ['↑' :: formatTokens st.usage.input,
     '↓' :: formatTokens st.usage.output,
     'R' :: formatTokens st.usage.cacheRead,
     'W' :: formatTokens st.usage.cacheWrite,
     '$' :: qFixed3 st.usage.cost]
  else
    ['↑' :: placeholder, '↓' :: placeholder, 'R' :: placeholder,
     'W' :: placeholder, '$' :: placeholder])
  ++ (if 0 < st.context.window then
      [if st.hasReceivedStats then
        (if 90 < contextPercent st then themeFg errorParams (contextDisplay st)
         else if 70 < contextPercent st then themeFg warningParams (contextDisplay st)
         else contextDisplay st)
       else placeholder ++ '/' :: formatTokens st.context.window]
    else [])
  ++ (match st.model with
    | some m =>
      [m.id ++
        (if m.reasoning ∧ st.thinkingLevel ≠ ThinkingLevel.off then
          ':' :: thinkingLevelChars st.thinkingLevel
        else [])]
    | none => [])
  ++ [formatElapsedTime env st]

/-- JavaScript `Array.join(sep)`. -/
def joinSep (sep : List Char) : List (List Char) → List Char
  | [] => []
  | [x] => x
  | x :: y :: rest => x ++ sep ++ joinSep sep (y :: rest)

/-- The separator `" | "` between stats segments. -/
def sepBar : List Char := [' ', '|', ' ']

/-- `buildStatsLine()`: the joined segments, dimmed. -/
def buildStatsLine (env : Env) (st : PrintModeProgress) : List Char :=
  themeFg dimParams (joinSep sepBar (statsParts env st))

/-- The current spinner glyph (the state machine keeps the index below
`SPINNER_FRAMES.length`, so the default is never used). -/
def spinnerGlyph (st : PrintModeProgress) : Char :=
  SPINNER_FRAMES.getD st.spinnerFrame '⠋'

/-- `buildActivityLine()`: spinner plus activity-specific label and
detail text. -/
def buildActivityLine (st : PrintModeProgress) : List Char :=
  let spinner := themeFg accentParams [spinnerGlyph st]
  match st.currentActivityType with
  | ActivityType.tool =>
    spinner ++ ' ' :: themeFg accentParams ('[' :: st.currentToolName ++ [']']) ++
      ' ' :: st.currentActivity
  | ActivityType.thinking =>
    if st.currentActivity ≠ [] then
      spinner ++ ' ' :: themeFg accentParams "[thinking]".toList ++ ' ' :: st.currentActivity
    else spinner ++ ' ' :: themeFg accentParams "[thinking]".toList
  | ActivityType.text => spinner ++ ' ' :: st.currentActivity
  | ActivityType.system =>
    if ("Retrying".toList).isPrefixOf st.currentActivity then
      themeFg warningParams [spinnerGlyph st] ++ ' ' :: themeFg warningParams st.currentActivity
    else spinner ++ ' ' :: st.currentActivity

/-- `process.stderr.columns || 80`. -/
def termWidthOf (env : Env) : Nat :=
  match env.columns with
  | some n => if n = 0 then 80 else n
  | none => 80

/-- The per-line truncation performed in `render`. -/
def displayLine (env : Env) (line : List Char) : List Char :=
  if termWidthOf env < visibleWidth line then truncateToWidth line (termWidthOf env)
  else line

/-- `\x1b[3A\r`: cursor up three lines plus carriage return. -/
def cursorUp3 : List Char :=
  "\x1b[3A\r".toList

/-- `\x1b[K`: clear the current line. -/
def clearSeq : List Char :=
  "\x1b[K".toList

/-- The single `stderr.write` payload of one render: optional cursor-up
prefix (only after the first paint), then the four owned lines — blank,
activity, stats, blank — each preceded by a clear-line sequence, with no
newline after the final clear (the cursor stays at the start of the
trailing blank line). -/
def renderPayload (env : Env) (st : PrintModeProgress) : List Char :=
  (if st.hasRenderedOnce then cursorUp3 else []) ++
    clearSeq ++ '\n' :: clearSeq ++ displayLine env (buildActivityLine st) ++
    '\n' :: clearSeq ++ displayLine env (buildStatsLine env st) ++
    '\n' :: clearSeq

/-- `render()`: gated on `isActive`; emits one write and records that a
paint happened. -/
def render (env : Env) (st : PrintModeProgress) : PrintModeProgress × List (List Char) :=
  if st.isActive then ({ st with hasRenderedOnce := true }, [renderPayload env st])
  else (st, [])

/-- The state transition of `handleEvent`'s `switch` (before the final
render): route by event kind and, for message events, by role; an
unrecognized kind falls through with the state unchanged. -/
def eventStep (env : Env) (e : Event) (st : PrintModeProgress) : PrintModeProgress :=
  match e with
  | Event.message_start msg =>
    if msg.role = Role.assistant then
      { st with
        currentActivity := "Working...".toList
        currentActivityType := ActivityType.system }
    else st
  | Event.message_update msg =>
    if msg.role = Role.assistant then updateFromAssistantMessage env st msg else st
  | Event.message_end msg =>
    if msg.role = Role.assistant then
      { st with
        usage := addUsage st.usage msg.usage
        context := { st.context with
          tokens := msg.usage.input + msg.usage.output + msg.usage.cacheRead +
            msg.usage.cacheWrite }
        hasReceivedStats := true }
    else st
  | Event.auto_compaction_start =>
    { st with
      currentActivity := "Compacting context...".toList
      currentActivityType := ActivityType.system }
  | Event.auto_retry_start attempt maxAttempts =>
    { st with
      currentActivity := "Retrying (".toList ++ natChars attempt ++ '/' ::
        natChars maxAttempts ++ ")...".toList
      currentActivityType := ActivityType.system }
  | Event.other => st

/-- `handleEvent(event)`: no-op when inactive; otherwise apply the
`switch` transition and render once. -/
def handleEvent (env : Env) (e : Event) (st : PrintModeProgress) :
    PrintModeProgress × List (List Char) :=
  if st.isActive = false then (st, [])
  else render env (eventStep env e st)

/-- `model?.contextWindow || 0`. -/
def windowOf : Option Model → Nat
  | some m => m.contextWindow
  | none => 0

/-- `start(model, thinkingLevel)`: set the session fields, mark active,
start the spinner clock, and render immediately.  (Note: the cumulative
`usage` and the `spinnerFrame` are *not* touched.) -/
def start (env : Env) (model : Option Model) (thinkingLevel : ThinkingLevel)
    (st : PrintModeProgress) : PrintModeProgress × List (List Char) :=
  let st' := { st with
    model := model
    thinkingLevel := thinkingLevel
    startTime := env.now
    isActive := true
    hasReceivedStats := false
    currentActivity := "Starting...".toList
    currentActivityType := ActivityType.system
    context := { tokens := 0, window := windowOf model }
    hasRenderedOnce := false
    spinnerRunning := true }
  render env st'

/-- The fixed clear sequence written by `clearLines()`. -/
def clearLinesSeq : List Char :=
  "\x1b[3A\r\x1b[K\n\x1b[K\n\x1b[K\n\x1b[K\x1b[3A\r".toList

/-- `stop()`: deactivate, cancel the clock, clear the owned lines. -/
def stop (st : PrintModeProgress) : PrintModeProgress × List (List Char) :=
  ({ st with isActive := false, spinnerRunning := false }, [clearLinesSeq])

/-- The spinner-interval callback: advance the frame and render. -/
def tick (env : Env) (st : PrintModeProgress) : PrintModeProgress × List (List Char) :=
  render env { st with spinnerFrame := (st.spinnerFrame + 1) % SPINNER_FRAMES.length }

/-- Sequential event delivery (state part only). -/
def runEvents (env : Env) (es : List Event) (st : PrintModeProgress) : PrintModeProgress :=
  es.foldl (fun s e => (handleEvent env e s).1) st

theorem render_inactive {env : Env} {st : PrintModeProgress} (h : st.isActive = false) :
    render env st = (st, []) := by
  simp [render, h]

theorem render_active {env : Env} {st : PrintModeProgress} (h : st.isActive = true) :
    render env st = ({ st with hasRenderedOnce := true }, [renderPayload env st]) := by
  simp [render, h]

theorem updateFromAssistantMessage_isActive (env : Env) (st : PrintModeProgress) (m : Message) :
    (updateFromAssistantMessage env st m).isActive = st.isActive := by
  unfold updateFromAssistantMessage
  split
  · rfl
  · split
    · rfl
    · split
      · split
        · rfl
        · rfl
      · rfl

theorem eventStep_isActive (env : Env) (e : Event) (st : PrintModeProgress) :
    (eventStep env e st).isActive = st.isActive := by
  cases e with
  | message_start msg =>
    by_cases hr : msg.role = Role.assistant <;> simp [eventStep, hr]
  | message_update msg =>
    by_cases hr : msg.role = Role.assistant <;>
      simp [eventStep, hr, updateFromAssistantMessage_isActive]
  | message_end msg =>
    by_cases hr : msg.role = Role.assistant <;> simp [eventStep, hr]
  | auto_compaction_start => rfl
  | auto_retry_start attempt maxAttempts => rfl
  | other => rfl

theorem handleEvent_inactive {env : Env} {e : Event} {st : PrintModeProgress}
    (h : st.isActive = false) : handleEvent env e st = (st, []) := by
  simp [handleEvent, h]

theorem handleEvent_active {env : Env} {e : Event} {st : PrintModeProgress}
    (h : st.isActive = true) :
    handleEvent env e st =
      ({ eventStep env e st with hasRenderedOnce := true },
        [renderPayload env (eventStep env e st)]) := by
  have h2 : (eventStep env e st).isActive = true := by
    rw [eventStep_isActive, h]
  simp [handleEvent, h, render_active h2]

/-- C4: every render in the active state performs exactly one write,
whose bytes are: a cursor-up-3-plus-carriage-return prefix `\x1b[3A\r`
exactly when a frame was painted before (and nothing before the first
line on the first render), then the four owned lines — blank, activity,
stats, blank — each preceded by the clear-line sequence `\x1b[K` and
separated by newlines, with no newline after the trailing clear, so the
cursor is left at the start of the trailing blank line; afterwards the
repaint flag is set, so every subsequent render carries the cursor-up
prefix. -/
theorem render_protocol (env : Env) (st : PrintModeProgress) (h : st.isActive = true) :
    ∃ A S,
      (render env st).2 =
        [(if st.hasRenderedOnce then cursorUp3 else []) ++ clearSeq ++ '\n' :: clearSeq ++ A ++
          '\n' :: clearSeq ++ S ++ '\n' :: clearSeq] ∧
      A = displayLine env (buildActivityLine st) ∧
      S = displayLine env (buildStatsLine env st) ∧
      (render env st).1 = { st with hasRenderedOnce := true } := by
  refine ⟨displayLine env (buildActivityLine st), displayLine env (buildStatsLine env st),
    ?_, rfl, rfl, ?_⟩
  · rw [render_active h]
    simp [renderPayload]
  · rw [render_active h]

/-- A concrete environment for the witnesses. -/
def envStd : Env where
  columns := some 80
  now := 0
  home := []

/-- A concrete started display state. -/
def stStarted : PrintModeProgress :=
  (start envStd none ThinkingLevel.off (initState 0)).1

/-- C4 witness: the protocol theorem applied at a concrete active
state, discharging the activity hypothesis there. -/
theorem render_protocol_witness :
    ∃ A S,
      (render envStd stStarted).2 =
        [(if stStarted.hasRenderedOnce then cursorUp3 else []) ++ clearSeq ++ '\n' :: clearSeq ++
          A ++ '\n' :: clearSeq ++ S ++ '\n' :: clearSeq] ∧
      A = displayLine envStd (buildActivityLine stStarted) ∧
      S = displayLine envStd (buildStatsLine envStd stStarted) ∧
      (render envStd stStarted).1 = { stStarted with hasRenderedOnce := true } :=
  render_protocol envStd stStarted (by decide)

/-- A concrete completed-message usage for the C5 counterexample. -/
def usageA : Usage where
  input := 100
  output := 50
  cacheRead := 0
  cacheWrite := 0
  cost := 1 / 100

/-- The state after: construct, `start`, one assistant `message_end`
carrying `usageA`, then a second `start` — the beginning of a second
display session on the same instance. -/
def stSecondStart : PrintModeProgress :=
  (start envStd none ThinkingLevel.off
    ((handleEvent envStd
        (Event.message_end { role := Role.assistant, content := [], usage := usageA })
        ((start envStd none ThinkingLevel.off (initState 0)).1)).1)).1

/-- C5 counterexample: after a second `start()`, the cumulative input
tokens still hold the previous session's `100` — `start` does not reset
the usage accumulators to zero as the claim states. -/
theorem start_no_usage_reset_cex :
    stSecondStart.usage.input = 100 ∧ ¬ stSecondStart.usage.input = 0 := by
  decide

/-- C5 (amended): `start(model, thinkingLevel)` sets active, resets the
session start time, the stats-received flag, the context occupancy, the
activity and the first-render flag, begins the spinner clock, and
performs an immediate first render (one write, without a cursor-up
prefix); but the cumulative usage totals and the spinner frame are NOT
reset — they persist from construction, so totals accumulated before a
second `start()` carry into the new session. -/
theorem start_behavior (env : Env) (model : Option Model) (tl : ThinkingLevel)
    (st : PrintModeProgress) :
    (start env model tl st).1.isActive = true ∧
    (start env model tl st).1.startTime = env.now ∧
    (start env model tl st).1.hasReceivedStats = false ∧
    (start env model tl st).1.context = { tokens := 0, window := windowOf model } ∧
    (start env model tl st).1.currentActivity = "Starting...".toList ∧
    (start env model tl st).1.currentActivityType = ActivityType.system ∧
    (start env model tl st).1.spinnerRunning = true ∧
    (start env model tl st).1.hasRenderedOnce = true ∧
    (start env model tl st).1.usage = st.usage ∧
    (start env model tl st).1.spinnerFrame = st.spinnerFrame ∧
    ∃ A S,
      (start env model tl st).2 =
        [clearSeq ++ '\n' :: clearSeq ++ A ++ '\n' :: clearSeq ++ S ++ '\n' :: clearSeq] := by
  have h : (start env model tl st) =
      ({ st with
          model := model
          thinkingLevel := tl
          startTime := env.now
          isActive := true
          hasReceivedStats := false
          currentActivity := "Starting...".toList
          currentActivityType := ActivityType.system
          context := { tokens := 0, window := windowOf model }
          hasRenderedOnce := true
          spinnerRunning := true },
        [renderPayload env
          { st with
            model := model
            thinkingLevel := tl
            startTime := env.now
            isActive := true
            hasReceivedStats := false
            currentActivity := "Starting...".toList
            currentActivityType := ActivityType.system
            context := { tokens := 0, window := windowOf model }
            hasRenderedOnce := false
            spinnerRunning := true }]) := by
    rw [start, render_active rfl]
  rw [h]
  refine ⟨rfl, rfl, rfl, rfl, rfl, rfl, rfl, rfl, rfl, rfl, ?_⟩
  exact ⟨_, _, rfl⟩

/-- C9: after `stop()`, every event is a no-op — `handleEvent` leaves
the stopped state (activity, usage, everything) unchanged and performs
zero writes — and a spinner tick arriving after `stop()` produces no
render output either. -/
theorem no_effect_after_stop (env : Env) (e : Event) (st : PrintModeProgress) :
    handleEvent env e ((stop st).1) = ((stop st).1, []) ∧
      (tick env ((stop st).1)).2 = [] := by
  have hin : ((stop st).1).isActive = false := rfl
  constructor
  · exact handleEvent_inactive hin
  · rw [tick, render_inactive rfl]

/-- C10: while the display is active, every `handleEvent` call performs
exactly one write (a repaint of the current frame), including for
unrecognized event kinds and for message events whose role is not
`assistant`; in both of those cases the state is unchanged apart from
the repaint flag set by the render. -/
theorem handleEvent_always_renders (env : Env) (e : Event) (st : PrintModeProgress)
    (h : st.isActive = true) :
    ((handleEvent env e st).2).length = 1 ∧
    (e = Event.other → (handleEvent env e st).1 = { st with hasRenderedOnce := true }) ∧
    (∀ msg, ¬ msg.role = Role.assistant →
      e = Event.message_start msg ∨ e = Event.message_update msg ∨ e = Event.message_end msg →
      (handleEvent env e st).1 = { st with hasRenderedOnce := true }) := by
  rw [handleEvent_active h]
  refine ⟨rfl, ?_, ?_⟩
  · intro he
    subst he
    rfl
  · intro msg hrole he
    rcases he with he | he | he <;> subst he <;> simp [eventStep, hrole]

/-- C10 witness: the theorem applied in a concrete active state at an
unrecognized event, discharging the hypotheses there. -/
theorem handleEvent_always_renders_witness :
    ((handleEvent envStd Event.other stStarted).2).length = 1 ∧
      (handleEvent envStd Event.other stStarted).1 = { stStarted with hasRenderedOnce := true } :=
  ⟨(handleEvent_always_renders envStd Event.other stStarted (by decide)).1,
    (handleEvent_always_renders envStd Event.other stStarted (by decide)).2.1 rfl⟩

/-- An assistant completed-message event carrying the given usage. -/
def mkEndEvent (u : Usage) : Event :=
  Event.message_end { role := Role.assistant, content := [], usage := u }

theorem handleEvent_message_end {env : Env} {msg : Message} {st : PrintModeProgress}
    (h : st.isActive = true) (hrole : msg.role = Role.assistant) :
    (handleEvent env (Event.message_end msg) st).1 =
      { st with
        usage := addUsage st.usage msg.usage
        context := { st.context with
          tokens := msg.usage.input + msg.usage.output + msg.usage.cacheRead +
            msg.usage.cacheWrite }
        hasReceivedStats := true
        hasRenderedOnce := true } := by
  rw [handleEvent_active h]
  simp [eventStep, hrole]

theorem runEnds_spec (env : Env) : ∀ (us : List Usage) (st : PrintModeProgress),
    st.isActive = true →
    (runEvents env (us.map mkEndEvent) st).usage.input
        = st.usage.input + (us.map Usage.input).sum ∧
    (runEvents env (us.map mkEndEvent) st).usage.output
        = st.usage.output + (us.map Usage.output).sum ∧
    (runEvents env (us.map mkEndEvent) st).usage.cacheRead
        = st.usage.cacheRead + (us.map Usage.cacheRead).sum ∧
    (runEvents env (us.map mkEndEvent) st).usage.cacheWrite
        = st.usage.cacheWrite + (us.map Usage.cacheWrite).sum ∧
    (runEvents env (us.map mkEndEvent) st).usage.cost
        = st.usage.cost + (us.map Usage.cost).sum ∧
    (us = [] → runEvents env (us.map mkEndEvent) st = st) ∧
    (∀ u, us.getLast? = some u →
      (runEvents env (us.map mkEndEvent) st).context.tokens
        = u.input + u.output + u.cacheRead + u.cacheWrite) ∧
    (¬ us = [] → (runEvents env (us.map mkEndEvent) st).hasReceivedStats = true) ∧
    (runEvents env (us.map mkEndEvent) st).isActive = true := by
  intro us
  induction us with
  | nil =>
    intro st h
    refine ⟨by simp [runEvents], by simp [runEvents], by simp [runEvents],
      by simp [runEvents], by simp [runEvents], fun _ => rfl, ?_, ?_, h⟩
    · intro u hu
      simp at hu
    · intro habs
      exact absurd rfl habs
  | cons u rest ih =>
    intro st h
    have hst1eq : (handleEvent env (mkEndEvent u) st).1 =
        { st with
          usage := addUsage st.usage u
          context := { st.context with
            tokens := u.input + u.output + u.cacheRead + u.cacheWrite }
          hasReceivedStats := true
          hasRenderedOnce := true } :=
      handleEvent_message_end h rfl
    have hrun : runEvents env ((u :: rest).map mkEndEvent) st
        = runEvents env (rest.map mkEndEvent) ((handleEvent env (mkEndEvent u) st).1) := rfl
    have h1 : ((handleEvent env (mkEndEvent u) st).1).isActive = true := by
      rw [hst1eq]
      exact h
    obtain ⟨hi, ho, hr, hw, hc, hnil, hlast, hstats, hact⟩ :=
      ih ((handleEvent env (mkEndEvent u) st).1) h1
    rw [hrun]
    refine ⟨?_, ?_, ?_, ?_, ?_, ?_, ?_, ?_, hact⟩
    · rw [hi, hst1eq]
      simp [addUsage]
      omega
    · rw [ho, hst1eq]
      simp [addUsage]
      omega
    · rw [hr, hst1eq]
      simp [addUsage]
      omega
    · rw [hw, hst1eq]
      simp [addUsage]
      omega
    · rw [hc, hst1eq]
      simp [addUsage, add_assoc]
    · intro habs
      simp at habs
    · intro v hv
      rcases rest with _ | ⟨w, rest'⟩
      · simp at hv
        have hfin : runEvents env (List.map mkEndEvent []) ((handleEvent env (mkEndEvent u) st).1)
            = (handleEvent env (mkEndEvent u) st).1 := rfl
        rw [hfin, hst1eq, ← hv]
      · rw [List.getLast?_cons_cons] at hv
        exact hlast v hv
    · intro _
      rcases rest with _ | ⟨w, rest'⟩
      · have hfin : runEvents env (List.map mkEndEvent []) ((handleEvent env (mkEndEvent u) st).1)
            = (handleEvent env (mkEndEvent u) st).1 := rfl
        rw [hfin, hst1eq]
      · exact hstats (by simp)

/-- C6: starting from a session whose accumulators are at their initial
zero state, a sequence of assistant completed-message events makes the
usage totals the field-wise sums of all the messages' usage values
(sums, not overwrites); the context-occupancy token count equals the
sum of only the most recent message's four token fields (replaced
wholesale); and the stats-received flag is true from the first such
event on. -/
theorem usage_totals_are_sums (env : Env) (us : List Usage) (st : PrintModeProgress)
    (hAct : st.isActive = true)
    (hZero : st.usage = { input := 0, output := 0, cacheRead := 0, cacheWrite := 0, cost := 0 }) :
    (runEvents env (us.map mkEndEvent) st).usage.input = (us.map Usage.input).sum ∧
    (runEvents env (us.map mkEndEvent) st).usage.output = (us.map Usage.output).sum ∧
    (runEvents env (us.map mkEndEvent) st).usage.cacheRead = (us.map Usage.cacheRead).sum ∧
    (runEvents env (us.map mkEndEvent) st).usage.cacheWrite = (us.map Usage.cacheWrite).sum ∧
    (runEvents env (us.map mkEndEvent) st).usage.cost = (us.map Usage.cost).sum ∧
    (∀ u, us.getLast? = some u →
      (runEvents env (us.map mkEndEvent) st).context.tokens
        = u.input + u.output + u.cacheRead + u.cacheWrite) ∧
    (¬ us = [] → (runEvents env (us.map mkEndEvent) st).hasReceivedStats = true) := by
  obtain ⟨hi, ho, hr, hw, hc, _, hlast, hstats, _⟩ := runEnds_spec env us st hAct
  rw [hZero] at hi ho hr hw hc
  simp at hi ho hr hw hc
  exact ⟨hi, ho, hr, hw, hc, hlast, hstats⟩

/-- The second completed-message usage of the spec's worked example. -/
def usageB : Usage where
  input := 200
  output := 100
  cacheRead := 0
  cacheWrite := 0
  cost := 2 / 100

/-- C6 witness: the theorem applied to the spec's two-message example
(`{100,50,0,0,0.01}` then `{200,100,0,0,0.02}`) on a concrete started
state, discharging both hypotheses there. -/
theorem usage_totals_are_sums_witness :
    (runEvents envStd ([usageA, usageB].map mkEndEvent) stStarted).usage.input
        = ([usageA, usageB].map Usage.input).sum ∧
    (runEvents envStd ([usageA, usageB].map mkEndEvent) stStarted).usage.cost
        = ([usageA, usageB].map Usage.cost).sum ∧
    (runEvents envStd ([usageA, usageB].map mkEndEvent) stStarted).hasReceivedStats = true :=
  ⟨(usage_totals_are_sums envStd [usageA, usageB] stStarted (by decide) rfl).1,
    (usage_totals_are_sums envStd [usageA, usageB] stStarted (by decide) rfl).2.2.2.2.1,
    (usage_totals_are_sums envStd [usageA, usageB] stStarted (by decide) rfl).2.2.2.2.2.2
      (by simp)⟩

theorem mem_collapseSpaces : ∀ {l : List Char} {a : Char}, a ∈ collapseSpaces l → a ∈ l := by
  intro l
  induction l with
  | nil =>
    intro a ha
    simp [collapseSpaces] at ha
  | cons c rest ih =>
    intro a ha
    rcases rest with _ | ⟨d, rest'⟩
    · simpa [collapseSpaces] using ha
    · simp only [collapseSpaces] at ha
      by_cases hcd : c = ' ' ∧ d = ' '
      · rw [if_pos hcd] at ha
        exact List.mem_cons_of_mem c (ih ha)
      · rw [if_neg hcd] at ha
        rcases List.mem_cons.mp ha with h | h
        · exact h ▸ List.mem_cons_self a _
        · exact List.mem_cons_of_mem c (ih h)

theorem jsTrim_nil_of_all {l : List Char} (h : ∀ c ∈ l, jsWhitespace c = true) :
    jsTrim l = [] := by
  have h1 : l.dropWhile jsWhitespace = [] := by
    rw [List.dropWhile_eq_nil_iff]
    exact fun x hx => h x hx
  rw [jsTrim, h1]
  simp

theorem all_ws_of_jsTrim_nil {l : List Char} (h : jsTrim l = []) :
    ∀ c ∈ l, jsWhitespace c = true := by
  intro c hc
  rw [jsTrim] at h
  have h1 : (l.dropWhile jsWhitespace).reverse.dropWhile jsWhitespace = [] := by
    rwa [List.reverse_eq_nil_iff] at h
  have h2 : ∀ x ∈ (l.dropWhile jsWhitespace).reverse, jsWhitespace x = true :=
    List.dropWhile_eq_nil_iff.mp h1
  have h3 : ∀ x ∈ l.dropWhile jsWhitespace, jsWhitespace x = true := by
    intro x hx
    exact h2 x (List.mem_reverse.mpr hx)
  have h4 : l = l.takeWhile jsWhitespace ++ l.dropWhile jsWhitespace :=
    (List.takeWhile_append_dropWhile jsWhitespace l).symm
  rw [h4] at hc
  rcases List.mem_append.mp hc with h5 | h5
  · exact List.mem_takeWhile_imp h5
  · exact h3 c h5

/-- When the raw thinking text trims to nothing, its normalization is
also empty — so the two branches of the thinking case coincide with
"the last block's whitespace-normalized text". -/
theorem normalizeText_nil_of_jsTrim_nil {t : List Char} (h : jsTrim t = []) :
    normalizeText t = [] := by
  rw [normalizeText]
  apply jsTrim_nil_of_all
  intro c hc
  have hc2 := mem_collapseSpaces hc
  obtain ⟨a, ha, rfl⟩ := List.mem_map.mp hc2
  have hwa := all_ws_of_jsTrim_nil h a ha
  by_cases hcl : a = '\r' ∨ a = '\n' ∨ a = '\t'
  · rw [if_pos hcl]
    decide
  · rw [if_neg hcl]
    exact hwa

/-- A concrete state whose current activity is a thinking state. -/
def stThinking : PrintModeProgress :=
  { stStarted with currentActivityType := ActivityType.thinking, currentActivity := ['x'] }

/-- A message whose only content is a generated-text block with empty
text. -/
def msgEmptyText : Message where
  role := Role.assistant
  content := [ContentBlock.text []]
  usage := usageA

/-- C7 counterexample: a message containing a generated-text block whose
text is empty leaves the prior activity state unchanged (here: still
Thinking), while the claim as stated says the state becomes Text with
the block's normalized text. -/
theorem activity_priority_cex :
    (updateFromAssistantMessage envStd stThinking msgEmptyText) = stThinking ∧
      ¬ (updateFromAssistantMessage envStd stThinking msgEmptyText).currentActivityType
          = ActivityType.text := by
  decide

/-- C7 (amended): the derived activity state follows the stated
priority — any tool call makes the state Tool with the last call's name
and formatted arguments; else any thinking block makes it Thinking with
the last block's whitespace-normalized text; else a generated-text
block whose *last* occurrence has non-empty text makes it Text with
that normalized text; in every other case (no renderable content, or
the last text block empty) the prior state is left unchanged. -/
theorem activity_priority (env : Env) (st : PrintModeProgress) (m : Message) :
    (∀ n a, (toolCallsOf m).getLast? = some (n, a) →
      updateFromAssistantMessage env st m =
        { st with
          currentToolName := n
          currentActivity := formatToolCall env n a
          currentActivityType := ActivityType.tool }) ∧
    (toolCallsOf m = [] → ∀ t, (thinkingsOf m).getLast? = some t →
      updateFromAssistantMessage env st m =
        { st with
          currentActivity := normalizeText t
          currentActivityType := ActivityType.thinking }) ∧
    (toolCallsOf m = [] → thinkingsOf m = [] →
      ∀ t, (textsOf m).getLast? = some t → ¬ t = [] →
      updateFromAssistantMessage env st m =
        { st with
          currentActivity := normalizeText t
          currentActivityType := ActivityType.text }) ∧
    (toolCallsOf m = [] → thinkingsOf m = [] →
      ((textsOf m).getLast? = none ∨ (textsOf m).getLast? = some []) →
      updateFromAssistantMessage env st m = st) := by
  refine ⟨?_, ?_, ?_, ?_⟩
  · intro n a hlast
    rw [updateFromAssistantMessage, hlast]
  · intro htc t hlast
    have htc' : (toolCallsOf m).getLast? = none := by
      rw [htc]; rfl
    rw [updateFromAssistantMessage, htc', hlast]
    by_cases ht : jsTrim t = []
    · have hnt := normalizeText_nil_of_jsTrim_nil ht
      simp [ht, hnt]
    · simp [ht]
  · intro htc hth t hlast hne
    have htc' : (toolCallsOf m).getLast? = none := by
      rw [htc]; rfl
    have hth' : (thinkingsOf m).getLast? = none := by
      rw [hth]; rfl
    rw [updateFromAssistantMessage, htc', hth', hlast]
    simp [hne]
  · intro htc hth hcase
    have htc' : (toolCallsOf m).getLast? = none := by
      rw [htc]; rfl
    have hth' : (thinkingsOf m).getLast? = none := by
      rw [hth]; rfl
    rcases hcase with hcase | hcase
    · rw [updateFromAssistantMessage, htc', hth', hcase]
    · rw [updateFromAssistantMessage, htc', hth', hcase]
      simp

/-- A message whose only content is a tool call. -/
def msgBash : Message where
  role := Role.assistant
  content := [ContentBlock.toolCall "bash".toList
    { path := none, file_path := none, command := some "npm run check".toList,
      pattern := none, json := [] }]
  usage := usageA

/-- C7 witness: the amended theorem applied at a concrete message with
one tool call, discharging the last-tool-call hypothesis there. -/
theorem activity_priority_witness :
    updateFromAssistantMessage envStd stStarted msgBash =
      { stStarted with
        currentToolName := "bash".toList
        currentActivity := formatToolCall envStd "bash".toList
          { path := none, file_path := none, command := some "npm run check".toList,
            pattern := none, json := [] }
        currentActivityType := ActivityType.tool } :=
  (activity_priority envStd stStarted msgBash).1 "bash".toList
    { path := none, file_path := none, command := some "npm run check".toList,
      pattern := none, json := [] } (by decide)

theorem joinSep_infix (sep : List Char) :
    ∀ {parts : List (List Char)} {x : List Char}, x ∈ parts →
    ∃ u v, joinSep sep parts = u ++ (x ++ v) := by
  intro parts
  induction parts with
  | nil =>
    intro x hx
    simp at hx
  | cons p rest ih =>
    intro x hx
    rcases rest with _ | ⟨q, rest'⟩
    · simp at hx
      subst hx
      exact ⟨[], [], by simp [joinSep]⟩
    · rcases List.mem_cons.mp hx with h | h
      · subst h
        exact ⟨[], sep ++ joinSep sep (q :: rest'), by simp [joinSep]⟩
      · obtain ⟨u, v, hu⟩ := ih h
        refine ⟨p ++ sep ++ u, v, ?_⟩
        rw [joinSep, hu]
        simp

theorem buildStatsLine_infix_of_mem {env : Env} {st : PrintModeProgress} {x : List Char}
    (hx : x ∈ statsParts env st) :
    ∃ u v, buildStatsLine env st = u ++ (x ++ v) := by
  obtain ⟨u, v, hu⟩ := joinSep_infix sepBar hx
  refine ⟨sgrSeq dimParams ++ u, v ++ sgrSeq ['0'], ?_⟩
  rw [buildStatsLine, themeFg, hu]
  simp

/-- The model segment of the stats line (model id, with the reasoning
level suffix only when the model is reasoning-capable and the level is
not off). -/
def modelSegment (st : PrintModeProgress) : List (List Char) :=
  match st.model with
  | some m =>
    [m.id ++
      (if m.reasoning ∧ st.thinkingLevel ≠ ThinkingLevel.off then
        ':' :: thinkingLevelChars st.thinkingLevel
      else [])]
  | none => []

/-- C8: before the first completed message, the stats line contains the
five placeholder tokens `↑---`, `↓---`, `R---`, `W---`, `$---` (never
formatted zeros); it additionally contains the placeholder context
segment (`---`, a slash, then the formatted window capacity) when a
window capacity greater than 0 is
configured; and when the window capacity is 0 the segment list consists
of exactly the five placeholders, the model segment and the elapsed
time — no context-percentage segment appears. -/
theorem stats_placeholders (env : Env) (st : PrintModeProgress)
    (h : st.hasReceivedStats = false) :
    (∃ u v, buildStatsLine env st = u ++ (('↑' :: placeholder) ++ v)) ∧
    (∃ u v, buildStatsLine env st = u ++ (('↓' :: placeholder) ++ v)) ∧
    (∃ u v, buildStatsLine env st = u ++ (('R' :: placeholder) ++ v)) ∧
    (∃ u v, buildStatsLine env st = u ++ (('W' :: placeholder) ++ v)) ∧
    (∃ u v, buildStatsLine env st = u ++ (('$' :: placeholder) ++ v)) ∧
    (0 < st.context.window →
      ∃ u v, buildStatsLine env st =
        u ++ ((placeholder ++ '/' :: formatTokens st.context.window) ++ v)) ∧
    (st.context.window = 0 →
      statsParts env st =
        ['↑' :: placeholder, '↓' :: placeholder, 'R' :: placeholder, 'W' :: placeholder,
          '$' :: placeholder] ++ modelSegment st ++ [formatElapsedTime env st]) := by
  have hparts : statsParts env st =
      ['↑' :: placeholder, '↓' :: placeholder, 'R' :: placeholder, 'W' :: placeholder,
        '$' :: placeholder]
      ++ (if 0 < st.context.window then
          [placeholder ++ '/' :: formatTokens st.context.window]
        else [])
      ++ modelSegment st ++ [formatElapsedTime env st] := by
    rw [statsParts, modelSegment, h]
    simp
  refine ⟨?_, ?_, ?_, ?_, ?_, ?_, ?_⟩
  · exact buildStatsLine_infix_of_mem (by rw [hparts]; simp)
  · exact buildStatsLine_infix_of_mem (by rw [hparts]; simp)
  · exact buildStatsLine_infix_of_mem (by rw [hparts]; simp)
  · exact buildStatsLine_infix_of_mem (by rw [hparts]; simp)
  · exact buildStatsLine_infix_of_mem (by rw [hparts]; simp)
  · intro hw
    exact buildStatsLine_infix_of_mem (by rw [hparts]; simp [hw])
  · intro hw
    rw [hparts, hw]
    simp

/-- A concrete model with a 200k context window. -/
def testModel : Model where
  id := "test-model".toList
  reasoning := false
  contextWindow := 200000

/-- A concrete started display state with a known window capacity. -/
def stStartedWin : PrintModeProgress :=
  (start envStd (some testModel) ThinkingLevel.off (initState 0)).1

/-- C8 witness: the theorem applied at a concrete pre-stats state with
a positive window, discharging both hypotheses there. -/
theorem stats_placeholders_witness :
    (∃ u v, buildStatsLine envStd stStartedWin = u ++ (('↑' :: placeholder) ++ v)) ∧
    (∃ u v, buildStatsLine envStd stStartedWin =
      u ++ ((placeholder ++ '/' :: formatTokens stStartedWin.context.window) ++ v)) :=
  ⟨(stats_placeholders envStd stStartedWin (by decide)).1,
    (stats_placeholders envStd stStartedWin (by decide)).2.2.2.2.2.1 (by decide)⟩

end PiProgress
